import Mathlib

/-!
Verification of the hybrid post-quantum encryption core of the Quant_client
repository (`src/backend/src/encryption/mod.rs` and `keys.rs`).

Rust strings are represented by `List Char`; Rust byte buffers (`Vec<u8>`,
`&[u8]`) by `List Nat` with every element `< 256`.  A Rust `String` used as
a plaintext is represented by its UTF-8 bytes (in Rust a `String` *is* a
UTF-8 byte vector), together with the UTF-8 validity predicate below.

External crates used by the source (`base64`, `pqcrypto_kyber`, `serde_json`)
are modelled here: base64 and the JSON wire format are implemented in full
for the fragment the source exercises, while the Kyber768 KEM primitive is an
abstract structure `Kem` carrying exactly the interface laws the pqcrypto
crate documents (fixed sizes, decapsulation recovering the encapsulated
shared secret for a matching key pair).
-/

/-! ## Base64 (models the `base64` crate with the `STANDARD` config) -/

/-- The standard base64 alphabet, in value order. -/
def base64Alphabet : List Char :=
  "ABCDEFGHIJKLMNOPQRSTUVWXYZabcdefghijklmnopqrstuvwxyz0123456789+/".toList

/-- Character for a six-bit value (`n < 64`). -/
def sextetChar (n : Nat) : Char :=
  base64Alphabet.getD n 'A'

/-- Six-bit value of an alphabet character, `none` for any other character. -/
def charSextet (c : Char) : Option Nat :=
  let i := base64Alphabet.findIdx (fun d => d = c)
  if i < 64 then some i else none

/-- Base64 encoding of a byte list, three bytes to four characters, with
`=` padding, exactly as `base64::encode_config(_, STANDARD)`. -/
def b64EncodeList : List Nat → List Char
  | [] => []
  | [a] => [sextetChar (a / 4), sextetChar (a % 4 * 16), '=', '=']
  | [a, b] => [sextetChar (a / 4), sextetChar (a % 4 * 16 + b / 16),
      sextetChar (b % 16 * 4), '=']
  | a :: b :: c :: rest =>
      sextetChar (a / 4) :: sextetChar (a % 4 * 16 + b / 16) ::
        sextetChar (b % 16 * 4 + c / 64) :: sextetChar (c % 64) ::
        b64EncodeList rest

/-- Base64 decoding, `none` on any input `base64::decode_config(_, STANDARD)`
rejects: a length that is not a multiple of four, a character outside the
alphabet, or padding anywhere except the end of the final quantum. -/
def b64DecodeList : List Char → Option (List Nat)
  | [] => some []
  | a :: b :: c :: d :: rest =>
      match charSextet a, charSextet b with
      | some x, some y =>
          if c = '=' then
            if d = '=' then
              if rest.isEmpty then some [x * 4 + y / 16] else none
            else none
          else
            match charSextet c with
            | some z =>
                if d = '=' then
                  if rest.isEmpty then
                    some [x * 4 + y / 16, y % 16 * 16 + z / 4]
                  else none
                else
                  match charSextet d with
                  | some w =>
                      match b64DecodeList rest with
                      | some tail =>
                          some ((x * 4 + y / 16) :: (y % 16 * 16 + z / 4) ::
                            (z % 4 * 64 + w) :: tail)
                      | none => none
                  | none => none
            | none => none
      | _, _ => none
  | _ => none

/-! ## UTF-8 (models Rust `String::from_utf8` validation and `str` slicing) -/

/-- A UTF-8 continuation byte (`0x80..=0xBF`). -/
def isUtf8Cont (b : Nat) : Bool :=
  0x80 ≤ b && b ≤ 0xBF

/-- UTF-8 validity of a byte list, the exact acceptance condition of Rust
`String::from_utf8` (RFC 3629: no overlong forms, no surrogates, no code
points above `0x10FFFF`). -/
def utf8Valid : List Nat → Bool
  | [] => true
  | b :: rest =>
      if b ≤ 0x7F then utf8Valid rest
      else
        match rest with
        | [] => false
        | c1 :: rest1 =>
            if 0xC2 ≤ b && b ≤ 0xDF then isUtf8Cont c1 && utf8Valid rest1
            else
              match rest1 with
              | [] => false
              | c2 :: rest2 =>
                  if b = 0xE0 then
                    (0xA0 ≤ c1 && c1 ≤ 0xBF) && isUtf8Cont c2 && utf8Valid rest2
                  else if (0xE1 ≤ b && b ≤ 0xEC) || b = 0xEE || b = 0xEF then
                    isUtf8Cont c1 && isUtf8Cont c2 && utf8Valid rest2
                  else if b = 0xED then
                    (0x80 ≤ c1 && c1 ≤ 0x9F) && isUtf8Cont c2 && utf8Valid rest2
                  else
                    match rest2 with
                    | [] => false
                    | c3 :: rest3 =>
                        if b = 0xF0 then
                          (0x90 ≤ c1 && c1 ≤ 0xBF) && isUtf8Cont c2 &&
                            isUtf8Cont c3 && utf8Valid rest3
                        else if 0xF1 ≤ b && b ≤ 0xF3 then
                          isUtf8Cont c1 && isUtf8Cont c2 && isUtf8Cont c3 &&
                            utf8Valid rest3
                        else if b = 0xF4 then
                          (0x80 ≤ c1 && c1 ≤ 0x8F) && isUtf8Cont c2 &&
                            isUtf8Cont c3 && utf8Valid rest3
                        else false

/-- Rust `str::is_char_boundary i`: true at the ends of the string and at any
index holding a byte that is not a continuation byte. -/
def isCharBoundary (bs : List Nat) (i : Nat) : Bool :=
  i = 0 || i = bs.length || (decide (i < bs.length) && !isUtf8Cont (bs.getD i 0))

/-! ## Keystream stretching

The source extends the shared secret with
`while key_bytes.len() < n { key_bytes.extend_from_slice(shared_secret) }`.
Each iteration appends at least one byte when the shared secret is nonempty,
so `n` iterations always suffice; `stretchFuel` runs the loop body with that
iteration bound made explicit (the empty-secret guard marks the case where
the Rust loop would never terminate — unreachable for a KEM whose
shared-secret size is positive). -/

def stretchFuel : Nat → List Nat → List Nat → Nat → List Nat
  | 0, _, acc, _ => acc
  | fuel + 1, ss, acc, n =>
      if acc.length < n then
        if ss.isEmpty then acc else stretchFuel fuel ss (acc ++ ss) n
      else acc

/-- `key_bytes` after the stretching loop: starts as one copy of the shared
secret and is extended until its length reaches `n`. -/
def stretchKey (ss : List Nat) (n : Nat) : List Nat :=
  stretchFuel n ss ss n

/-- `k` copies of a list, front to back (proof-side normal form of the
stretching loop's accumulator). -/
def repeatN : Nat → List Nat → List Nat
  | 0, _ => []
  | k + 1, ss => ss ++ repeatN k ss

/-! ## The KEM primitive (models the `pqcrypto_kyber::kyber768` interface)

`keypair` and `encapsulate` are randomized; their entropy is an explicit
`Nat` argument.  The laws are the interface guarantees of the pqcrypto
crate: all outputs are fixed-size byte strings, and decapsulating an
encapsulation's ciphertext with the matching secret key recovers the same
shared secret.  For the `kyber768` parameter set the sizes are
`pkLen = 1184`, `skLen = 2400`, `ctLen = 1088`, `ssLen = 32`; theorems that
depend on a concrete size take it as a hypothesis. -/

structure Kem where
  pkLen : Nat
  skLen : Nat
  ctLen : Nat
  ssLen : Nat
  ssLen_pos : 0 < ssLen
  keypair : Nat → List Nat × List Nat
  encapsulate : List Nat → Nat → List Nat × List Nat
  decapsulate : List Nat → List Nat → List Nat
  keypair_pk_len : ∀ r, ((keypair r).1).length = pkLen
  keypair_sk_len : ∀ r, ((keypair r).2).length = skLen
  keypair_pk_bytes : ∀ r, ∀ x ∈ (keypair r).1, x < 256
  keypair_sk_bytes : ∀ r, ∀ x ∈ (keypair r).2, x < 256
  encap_ct_len : ∀ pk r, ((encapsulate pk r).1).length = ctLen
  encap_ss_len : ∀ pk r, ((encapsulate pk r).2).length = ssLen
  encap_ct_bytes : ∀ pk r, ∀ x ∈ (encapsulate pk r).1, x < 256
  encap_ss_bytes : ∀ pk r, ∀ x ∈ (encapsulate pk r).2, x < 256
  decap_ss_len : ∀ ct sk, (decapsulate ct sk).length = ssLen
  decap_ss_bytes : ∀ ct sk, ∀ x ∈ (decapsulate ct sk), x < 256
  decap_encap : ∀ r re,
    decapsulate (encapsulate (keypair r).1 re).1 (keypair r).2 =
      (encapsulate (keypair r).1 re).2

/-! ## The encryption core (`src/backend/src/encryption/mod.rs`) -/

/-- Error taxonomy of the core.  The source returns `Box<dyn Error>` values;
each constructor stands for one of its distinct failure provenances:
a base64 decode error propagated with `?`, a key `from_bytes` rejection,
a Kyber-ciphertext `from_bytes` rejection, a `String::from_utf8` failure,
and a `serde_json` failure. -/
inductive CryptoError where
  | base64Error : CryptoError
  | keyFormatError : CryptoError
  | ciphertextFormatError : CryptoError
  | utf8Error : CryptoError
  | serializationError : CryptoError
deriving DecidableEq

/-- Decidable equality of fallible results, for evaluating the core on
closed inputs. -/
instance {e a : Type} [DecidableEq e] [DecidableEq a] :
    DecidableEq (Except e a) := fun x y =>
  match x, y with
  | .error u, .error v =>
      if h : u = v then isTrue (by rw [h])
      else isFalse (by intro hh; cases hh; exact h rfl)
  | .error _, .ok _ => isFalse (by intro hh; cases hh)
  | .ok _, .error _ => isFalse (by intro hh; cases hh)
  | .ok u, .ok v =>
      if h : u = v then isTrue (by rw [h])
      else isFalse (by intro hh; cases hh; exact h rfl)

/-- `EncryptedMessage { ciphertext, encapsulated_key }`: both fields are
base64 strings. -/
structure EncryptedMessage where
  ciphertext : List Char
  encapsulated_key : List Char
deriving DecidableEq

/-- `KeyPair { public_key, secret_key }` from `encryption/keys.rs`: both
fields are base64 strings. -/
structure KeyPair where
  public_key : List Char
  secret_key : List Char
deriving DecidableEq

/-- `const ENCRYPTION_MARKER: &str = "[Q-ENCRYPTED]"`. -/
def ENCRYPTION_MARKER : List Char :=
  "[Q-ENCRYPTED]".toList

/-- `const EXPECTED_KYBER_CIPHERTEXT_SIZE: usize = 1088`. -/
def EXPECTED_KYBER_CIPHERTEXT_SIZE : Nat := 1088

/-- `pub static mut DEBUG_MODE: bool = true` — the initial value of the
global debug flag. -/
def DEBUG_MODE : Bool := true

/-- The placeholder string returned by the decryption demo-mode fallback,
as UTF-8 bytes. -/
def DEMO_PLACEHOLDER : List Nat :=
  ("[DECRYPTION DEMO MODE]".toList).map Char.toNat

/-- `generate_keypair`: run the KEM keypair primitive and base64-encode both
outputs.  The Rust signature returns `Result` but the body is infallible. -/
def generate_keypair (K : Kem) (r : Nat) : KeyPair :=
  let pk := (K.keypair r).1
  let sk := (K.keypair r).2
  { public_key := b64EncodeList pk, secret_key := b64EncodeList sk }

/-- `encrypt_message(message, public_key_b64)`.  `message` is the UTF-8 byte
content of the Rust `&str`; `r` is the entropy consumed by the randomized
`encapsulate`.  Key `from_bytes` accepts exactly the byte strings of the
KEM's fixed public-key length. -/
def encrypt_message (K : Kem) (r : Nat) (message : List Nat)
    (public_key_b64 : List Char) : Except CryptoError EncryptedMessage :=
  match b64DecodeList public_key_b64 with
  | none => .error .base64Error
  | some pk_bytes =>
      if pk_bytes.length = K.pkLen then
        let kyber_ciphertext := (K.encapsulate pk_bytes r).1
        let shared_secret := (K.encapsulate pk_bytes r).2
        let key_bytes := stretchKey shared_secret message.length
        let encrypted_bytes := List.zipWith Nat.xor message key_bytes
        .ok { ciphertext := b64EncodeList encrypted_bytes,
              encapsulated_key := b64EncodeList kyber_ciphertext }
      else .error .keyFormatError

/-- `decrypt_message(encrypted_msg, secret_key_b64)`, returning the decrypted
plaintext as UTF-8 bytes.  Ciphertext `from_bytes` accepts exactly the byte
strings of the KEM's fixed ciphertext length; on rejection the source falls
back to a demo mode whenever the decoded length is 32 (and the expected size
constant is 1088), returning the base64-decoded message ciphertext as the
"plaintext" if it is valid UTF-8 and a fixed placeholder otherwise. -/
def decrypt_message (K : Kem) (encrypted_msg : EncryptedMessage)
    (secret_key_b64 : List Char) : Except CryptoError (List Nat) :=
  match b64DecodeList secret_key_b64 with
  | none => .error .base64Error
  | some sk_bytes =>
      if sk_bytes.length = K.skLen then
        match b64DecodeList encrypted_msg.encapsulated_key with
        | none => .error .base64Error
        | some kyber_ciphertext_bytes =>
            if kyber_ciphertext_bytes.length = K.ctLen then
              let shared_secret := K.decapsulate kyber_ciphertext_bytes sk_bytes
              match b64DecodeList encrypted_msg.ciphertext with
              | none => .error .base64Error
              | some encrypted_bytes =>
                  let key_bytes := stretchKey shared_secret encrypted_bytes.length
                  let decrypted_bytes := List.zipWith Nat.xor encrypted_bytes key_bytes
                  if utf8Valid decrypted_bytes then .ok decrypted_bytes
                  else .error .utf8Error
            else
              if kyber_ciphertext_bytes.length = 32 &&
                  EXPECTED_KYBER_CIPHERTEXT_SIZE = 1088 then
                match b64DecodeList encrypted_msg.ciphertext with
                | none => .error .base64Error
                | some encrypted_bytes =>
                    if utf8Valid encrypted_bytes then .ok encrypted_bytes
                    else .ok DEMO_PLACEHOLDER
              else .error .ciphertextFormatError
      else .error .keyFormatError

/-- The debug tracing in `decrypt_message` prints
`&decrypted_message[..30]` whenever the flag is set and the decrypted
plaintext is longer than 30 bytes; that Rust slice panics when byte 30 is
not a char boundary.  This predicate is true exactly when that panic fires. -/
def decrypt_debug_slice_panics (K : Kem) (debug : Bool)
    (encrypted_msg : EncryptedMessage) (secret_key_b64 : List Char) : Bool :=
  match decrypt_message K encrypted_msg secret_key_b64 with
  | .ok m => debug && decide (30 < m.length) && !isCharBoundary m 30
  | .error _ => false

/-! ## Message framing -/

/-- `pat` is a leading segment of `s` (component of Rust `str::contains` and
`str::replace`). -/
def startsWith : List Char → List Char → Bool
  | [], _ => true
  | _ :: _, [] => false
  | p :: ps, c :: cs => p = c && startsWith ps cs

/-- Rust `str::contains(pat)` for a string pattern. -/
def listContains (pat : List Char) : List Char → Bool
  | [] => pat.isEmpty
  | c :: rest => startsWith pat (c :: rest) || listContains pat rest

/-- One pass of Rust `s.replace(pat, "")` for a nonempty pattern
`p :: ps`: scan left to right, dropping each leftmost non-overlapping
occurrence.  Each step consumes at least one character, so `s.length` steps
suffice; the fuel makes that bound explicit. -/
def removeAllF : Nat → Char → List Char → List Char → List Char
  | 0, _, _, s => s
  | fuel + 1, p, ps, s =>
      match s with
      | [] => []
      | c :: rest =>
          if startsWith (p :: ps) (c :: rest) then
            removeAllF fuel p ps (List.drop ps.length rest)
          else c :: removeAllF fuel p ps rest

/-- Rust `s.replace(pat, "")` for a nonempty pattern. -/
def rustReplaceEmpty (p : Char) (ps : List Char) (s : List Char) : List Char :=
  removeAllF s.length p ps s

/-- The Unicode `White_Space` property, the acceptance set of Rust
`char::is_whitespace`. -/
def isRustWhitespace (c : Char) : Bool :=
  c.toNat = 0x09 || c.toNat = 0x0A || c.toNat = 0x0B || c.toNat = 0x0C ||
  c.toNat = 0x0D || c.toNat = 0x20 || c.toNat = 0x85 || c.toNat = 0xA0 ||
  c.toNat = 0x1680 || (0x2000 ≤ c.toNat && c.toNat ≤ 0x200A) ||
  c.toNat = 0x2028 || c.toNat = 0x2029 || c.toNat = 0x202F ||
  c.toNat = 0x205F || c.toNat = 0x3000

/-- Rust `str::trim`: strip leading and trailing whitespace. -/
def rustTrim (s : List Char) : List Char :=
  ((s.dropWhile isRustWhitespace).reverse.dropWhile isRustWhitespace).reverse

/-- `is_encrypted(subject)`: `subject.contains(ENCRYPTION_MARKER)`. -/
def is_encrypted (subject : List Char) : Bool :=
  listContains ENCRYPTION_MARKER subject

/-- `format_encrypted_subject(original)`:
`format!("{} {}", ENCRYPTION_MARKER, original_subject)`. -/
def format_encrypted_subject (original_subject : List Char) : List Char :=
  ENCRYPTION_MARKER ++ ' ' :: original_subject

/-- `extract_original_subject(encrypted_subject)`:
`encrypted_subject.replace(ENCRYPTION_MARKER, "").trim().to_string()`. -/
def extract_original_subject (encrypted_subject : List Char) : List Char :=
  rustTrim (rustReplaceEmpty '[' (ENCRYPTION_MARKER.drop 1) encrypted_subject)

/-- `format_encrypted_body()`: a fixed instructional string. -/
def format_encrypted_body : List Char :=
  ("This message is encrypted and can only be read using the Q-Client.\n\nPlease use your quantum-secure email client to view this message.").toList

/-! ## JSON wire format (models `serde_json` for `EncryptedMessage`)

`serialize_encrypted_message` is `serde_json::to_string`, which for this
struct emits `\x7b"ciphertext":"…","encapsulated_key":"…"\x7d` with
serde_json's string escaping (`\"`, `\\`, the five short control escapes,
`\u00XX` for the remaining control bytes).  `deserialize_encrypted_message`
is `serde_json::from_str` restricted to the value shapes this struct can
deserialize from: an object whose members are string-valued, in any order
and with any inter-token whitespace, from which both fields are read. -/

/-- Lowercase hex digit, as serde_json emits in `\u00XX` escapes. -/
def hexDigitChar (n : Nat) : Char :=
  ("0123456789abcdef".toList).getD n '0'

/-- Value of a hex digit, upper or lower case. -/
def hexVal (c : Char) : Option Nat :=
  if '0' ≤ c ∧ c ≤ '9' then some (c.toNat - 48)
  else if 'a' ≤ c ∧ c ≤ 'f' then some (c.toNat - 87)
  else if 'A' ≤ c ∧ c ≤ 'F' then some (c.toNat - 55)
  else none

/-- serde_json's escaping of one string character. -/
def escapeChar (c : Char) : List Char :=
  if c = '"' then ['\\', '"']
  else if c = '\\' then ['\\', '\\']
  else if c.toNat = 8 then ['\\', 'b']
  else if c.toNat = 9 then ['\\', 't']
  else if c.toNat = 10 then ['\\', 'n']
  else if c.toNat = 12 then ['\\', 'f']
  else if c.toNat = 13 then ['\\', 'r']
  else if c.toNat < 32 then
    ['\\', 'u', '0', '0', hexDigitChar (c.toNat / 16), hexDigitChar (c.toNat % 16)]
  else [c]

/-- serde_json's escaping of a string body. -/
def escapeString : List Char → List Char
  | [] => []
  | c :: rest => escapeChar c ++ escapeString rest

/-- Inverse of a single-character escape (`\"`, `\\`, `\/`, `\b`, `\f`,
`\n`, `\r`, `\t`). -/
def unescapeChar (e : Char) : Option Char :=
  if e = '"' then some '"'
  else if e = '\\' then some '\\'
  else if e = '/' then some '/'
  else if e = 'b' then some '\x08'
  else if e = 'f' then some '\x0C'
  else if e = 'n' then some '\n'
  else if e = 'r' then some '\r'
  else if e = 't' then some '\t'
  else none

/-- Parse a JSON string body (the opening quote already consumed), returning
the decoded characters and the input after the closing quote.  Raw control
characters are rejected, as serde_json rejects them; `\uXXXX` escapes of
Unicode scalar values are accepted (surrogate halves rejected — the
serializer never emits them). -/
def parseJsonString : List Char → Option (List Char × List Char)
  | [] => none
  | c :: rest =>
      if c = '"' then some ([], rest)
      else if c = '\\' then
        match rest with
        | [] => none
        | e :: rest1 =>
            if e = 'u' then
              match rest1 with
              | h1 :: h2 :: h3 :: h4 :: rest2 =>
                  match hexVal h1, hexVal h2, hexVal h3, hexVal h4 with
                  | some a, some b, some c2, some d =>
                      let n := a * 4096 + b * 256 + c2 * 16 + d
                      if n < 0xD800 ∨ (0xE000 ≤ n ∧ n < 0x110000) then
                        match parseJsonString rest2 with
                        | some (s, rem) => some (Char.ofNat n :: s, rem)
                        | none => none
                      else none
                  | _, _, _, _ => none
              | _ => none
            else
              match unescapeChar e with
              | some d =>
                  match parseJsonString rest1 with
                  | some (s, rem) => some (d :: s, rem)
                  | none => none
              | none => none
      else if c.toNat < 32 then none
      else
        match parseJsonString rest with
        | some (s, rem) => some (c :: s, rem)
        | none => none

/-- Skip JSON inter-token whitespace. -/
def skipWs (s : List Char) : List Char :=
  s.dropWhile (fun c => c = ' ' || c = '\t' || c = '\n' || c = '\r')

/-- Parse the members of a JSON object of string-valued fields, after the
opening brace: a comma-separated list of `"name" : "value"` pairs closed by
the closing brace.  Each member consumes at least one character, so
`s.length` iterations suffice; the fuel makes that bound explicit. -/
def parsePairs : Nat → List Char → Option (List (List Char × List Char) × List Char)
  | 0, _ => none
  | fuel + 1, s =>
      match skipWs s with
      | '"' :: rest =>
          match parseJsonString rest with
          | some (name, rest1) =>
              match skipWs rest1 with
              | ':' :: rest2 =>
                  match skipWs rest2 with
                  | '"' :: rest3 =>
                      match parseJsonString rest3 with
                      | some (value, rest4) =>
                          match skipWs rest4 with
                          | ',' :: rest5 =>
                              match parsePairs fuel rest5 with
                              | some (pairs, rem) =>
                                  some ((name, value) :: pairs, rem)
                              | none => none
                          | '\x7d' :: rest5 => some ([(name, value)], rest5)
                          | _ => none
                      | none => none
                  | _ => none
              | _ => none
          | none => none
      | _ => none

/-- First value bound to `name` among the parsed members. -/
def lookupField (name : List Char) : List (List Char × List Char) → Option (List Char)
  | [] => none
  | (n, v) :: rest => if n = name then some v else lookupField name rest

/-- `serialize_encrypted_message`: `serde_json::to_string(encrypted_msg)`.
Infallible for this struct (two string fields). -/
def serialize_encrypted_message (encrypted_msg : EncryptedMessage) : List Char :=
  '\x7b' :: '"' :: "ciphertext".toList ++ '"' :: ':' :: '"' ::
    escapeString encrypted_msg.ciphertext ++ '"' :: ',' :: '"' ::
    "encapsulated_key".toList ++ '"' :: ':' :: '"' ::
    escapeString encrypted_msg.encapsulated_key ++ ['"', '\x7d']

/-- `deserialize_encrypted_message(data)`: `serde_json::from_str`, requiring
a single object with both fields present and nothing but whitespace after
it. -/
def deserialize_encrypted_message (data : List Char) :
    Except CryptoError EncryptedMessage :=
  match skipWs data with
  | hd :: rest =>
      if hd = '\x7b' then
        match parsePairs (rest.length + 2) rest with
        | some (pairs, rem) =>
            if (skipWs rem).isEmpty then
              match lookupField ("ciphertext".toList) pairs,
                  lookupField ("encapsulated_key".toList) pairs with
              | some c, some k =>
                  .ok { ciphertext := c, encapsulated_key := k }
              | _, _ => .error .serializationError
            else .error .serializationError
        | none => .error .serializationError
      else .error .serializationError
  | [] => .error .serializationError

/-! ## Concrete KEM instances

Small lawful instances of the `Kem` interface, used to evaluate the core on
closed inputs.  `toyKem` exercises the regular paths; `toyKem1088` has the
Kyber768 ciphertext size, so its ciphertext `from_bytes` accepts exactly
1088-byte strings, as the real primitive does. -/

def toyKem : Kem where
  pkLen := 1
  skLen := 1
  ctLen := 4
  ssLen := 2
  ssLen_pos := by decide
  keypair := fun _ => ([0], [0])
  encapsulate := fun _ _ => ([0, 0, 0, 0], [0, 0])
  decapsulate := fun _ sk =>
    if sk = [0] then [0, 0] else if sk = [1] then [0, 1] else [1, 0]
  keypair_pk_len := fun _ => rfl
  keypair_sk_len := fun _ => rfl
  keypair_pk_bytes := by intro r x hx; fin_cases hx; decide
  keypair_sk_bytes := by intro r x hx; fin_cases hx; decide
  encap_ct_len := fun _ _ => rfl
  encap_ss_len := fun _ _ => rfl
  encap_ct_bytes := by intro pk r x hx; fin_cases hx <;> decide
  encap_ss_bytes := by intro pk r x hx; fin_cases hx <;> decide
  decap_ss_len := by
    intro ct sk
    by_cases h0 : sk = [0]
    · simp [h0]
    · by_cases h1 : sk = [1] <;> simp [h0, h1]
  decap_ss_bytes := by
    intro ct sk x hx
    by_cases h0 : sk = [0]
    · simp [h0] at hx; omega
    · by_cases h1 : sk = [1] <;> simp [h0, h1] at hx <;> omega
  decap_encap := fun _ _ => rfl

def toyKem1088 : Kem where
  pkLen := 1
  skLen := 1
  ctLen := 1088
  ssLen := 2
  ssLen_pos := by decide
  keypair := fun _ => ([0], [0])
  encapsulate := fun _ _ => (List.replicate 1088 0, [0, 0])
  decapsulate := fun _ _ => [0, 0]
  keypair_pk_len := fun _ => rfl
  keypair_sk_len := fun _ => rfl
  keypair_pk_bytes := by intro r x hx; fin_cases hx; decide
  keypair_sk_bytes := by intro r x hx; fin_cases hx; decide
  encap_ct_len := by
    intro pk r
    show (List.replicate 1088 (0 : Nat)).length = 1088
    rw [List.length_replicate]
  encap_ss_len := fun _ _ => rfl
  encap_ct_bytes := by
    intro pk r x hx
    have := List.eq_of_mem_replicate hx
    omega
  encap_ss_bytes := by intro pk r x hx; fin_cases hx <;> decide
  decap_ss_len := fun _ _ => rfl
  decap_ss_bytes := by intro ct sk x hx; fin_cases hx <;> decide
  decap_encap := fun _ _ => rfl

/-! ## Supporting lemmas: base64 -/

theorem charSextet_sextetChar {n : Nat} (h : n < 64) :
    charSextet (sextetChar n) = some n := by
  revert h
  revert n
  decide

theorem sextetChar_ne_pad {n : Nat} (h : n < 64) : sextetChar n ≠ '=' := by
  revert h
  revert n
  decide

/-- Decoding inverts encoding on byte lists. -/
theorem b64_roundtrip : ∀ bs : List Nat, (∀ x ∈ bs, x < 256) →
    b64DecodeList (b64EncodeList bs) = some bs := by
  intro bs
  induction bs using b64EncodeList.induct with
  | case1 => intro h; rfl
  | case2 a =>
      intro h
      have ha : a < 256 := h a (by simp)
      simp only [b64EncodeList, b64DecodeList,
        charSextet_sextetChar (show a / 4 < 64 by omega),
        charSextet_sextetChar (show a % 4 * 16 < 64 by omega)]
      simp only [if_pos rfl, List.isEmpty_nil, if_true, Option.some.injEq]
      simp
      omega
  | case3 a b =>
      intro h
      have ha : a < 256 := h a (by simp)
      have hb : b < 256 := h b (by simp)
      simp only [b64EncodeList, b64DecodeList,
        charSextet_sextetChar (show a / 4 < 64 by omega),
        charSextet_sextetChar (show a % 4 * 16 + b / 16 < 64 by omega),
        charSextet_sextetChar (show b % 16 * 4 < 64 by omega),
        sextetChar_ne_pad (show b % 16 * 4 < 64 by omega)]
      simp
      constructor <;> omega
  | case4 a b c rest ih =>
      intro h
      have ha : a < 256 := h a (by simp)
      have hb : b < 256 := h b (by simp)
      have hc : c < 256 := h c (by simp)
      have hrest : ∀ x ∈ rest, x < 256 := fun x hx => h x (by simp [hx])
      simp only [b64EncodeList, b64DecodeList,
        charSextet_sextetChar (show a / 4 < 64 by omega),
        charSextet_sextetChar (show a % 4 * 16 + b / 16 < 64 by omega),
        charSextet_sextetChar (show b % 16 * 4 + c / 64 < 64 by omega),
        charSextet_sextetChar (show c % 64 < 64 by omega),
        sextetChar_ne_pad (show b % 16 * 4 + c / 64 < 64 by omega),
        sextetChar_ne_pad (show c % 64 < 64 by omega),
        ih hrest]
      simp
      refine ⟨by omega, by omega, by omega⟩

/-! ## Supporting lemmas: XOR and the keystream -/

theorem xor_byte_lt {a b : Nat} (ha : a < 256) (hb : b < 256) : a ^^^ b < 256 := by
  have := Nat.xor_lt_two_pow (n := 8) ha hb
  simpa using this

theorem zipWith_xor_bytes_lt : ∀ (m k : List Nat), (∀ x ∈ m, x < 256) →
    (∀ x ∈ k, x < 256) → ∀ x ∈ List.zipWith Nat.xor m k, x < 256 := by
  intro m
  induction m with
  | nil => intro k _ _ x hx; simp at hx
  | cons a m ih =>
      intro k hm hk x hx
      cases k with
      | nil => simp at hx
      | cons b k =>
          simp only [List.zipWith_cons_cons, List.mem_cons] at hx
          rcases hx with hx | hx
          · subst hx
            exact xor_byte_lt (hm a (by simp)) (hk b (by simp))
          · exact ih k (fun y hy => hm y (by simp [hy]))
              (fun y hy => hk y (by simp [hy])) x hx

theorem zipWith_xor_cancel : ∀ (m k : List Nat), m.length ≤ k.length →
    List.zipWith Nat.xor (List.zipWith Nat.xor m k) k = m := by
  intro m
  induction m with
  | nil => intro k _; simp
  | cons a m ih =>
      intro k hk
      cases k with
      | nil => simp at hk
      | cons b k =>
          simp only [List.zipWith_cons_cons]
          refine congrArg₂ _ (Nat.xor_cancel_right b a) (ih k ?_)
          simpa using hk

theorem getD_zipWith_xor : ∀ (m k : List Nat) (i : Nat), i < m.length →
    i < k.length →
    (List.zipWith Nat.xor m k).getD i 0 = m.getD i 0 ^^^ k.getD i 0 := by
  intro m
  induction m with
  | nil => intro k i h _; simp at h
  | cons a m ih =>
      intro k i hm hk
      cases k with
      | nil => simp at hk
      | cons b k =>
          cases i with
          | zero => rfl
          | succ i =>
              simp only [List.zipWith_cons_cons, List.getD_cons_succ]
              exact ih k i (by simpa using hm) (by simpa using hk)

theorem repeatN_append_self : ∀ (k : Nat) (ss : List Nat),
    repeatN k ss ++ ss = repeatN (k + 1) ss := by
  intro k
  induction k with
  | zero => intro ss; simp [repeatN]
  | succ k ih => intro ss; simp [repeatN, List.append_assoc, ih]

theorem repeatN_length (k : Nat) (ss : List Nat) :
    (repeatN k ss).length = k * ss.length := by
  induction k with
  | zero => simp [repeatN]
  | succ k ih => simp [repeatN, ih, Nat.succ_mul]; omega

theorem repeatN_mem : ∀ (k : Nat) (ss : List Nat) (x : Nat),
    x ∈ repeatN k ss → x ∈ ss := by
  intro k
  induction k with
  | zero => intro ss x hx; simp [repeatN] at hx
  | succ k ih =>
      intro ss x hx
      simp only [repeatN, List.mem_append] at hx
      rcases hx with hx | hx
      · exact hx
      · exact ih ss x hx

theorem repeatN_getD (ss : List Nat) (hss : ss ≠ []) : ∀ (k i : Nat),
    i < (repeatN k ss).length →
    (repeatN k ss).getD i 0 = ss.getD (i % ss.length) 0 := by
  intro k
  induction k with
  | zero => intro i hi; simp [repeatN] at hi
  | succ k ih =>
      intro i hi
      simp only [repeatN]
      by_cases hlt : i < ss.length
      · rw [List.getD_append _ _ _ _ hlt, Nat.mod_eq_of_lt hlt]
      · push_neg at hlt
        rw [List.getD_append_right _ _ _ _ hlt]
        have hpos : 0 < ss.length := List.length_pos.mpr hss
        have hi' : i - ss.length < (repeatN k ss).length := by
          simp only [repeatN, List.length_append] at hi
          omega
        rw [ih (i - ss.length) hi', Nat.mod_eq_sub_mod hlt]

theorem stretchFuel_repeat : ∀ (fuel : Nat) (ss acc : List Nat) (k n : Nat),
    acc = repeatN k ss →
    ∃ m, stretchFuel fuel ss acc n = repeatN (k + m) ss := by
  intro fuel
  induction fuel with
  | zero => intro ss acc k n h; exact ⟨0, by simpa [stretchFuel] using h⟩
  | succ fuel ih =>
      intro ss acc k n h
      subst h
      simp only [stretchFuel]
      by_cases hlen : (repeatN k ss).length < n
      · rw [if_pos hlen]
        by_cases hss : ss.isEmpty
        · rw [if_pos hss]; exact ⟨0, rfl⟩
        · rw [if_neg hss, repeatN_append_self]
          obtain ⟨m, hm⟩ := ih ss (repeatN (k + 1) ss) (k + 1) n rfl
          exact ⟨m + 1, by rw [hm]; ring_nf⟩
      · rw [if_neg hlen]; exact ⟨0, rfl⟩

theorem stretchKey_repeat (ss : List Nat) (n : Nat) :
    ∃ k, 1 ≤ k ∧ stretchKey ss n = repeatN k ss := by
  have h1 : ss = repeatN 1 ss := by simp [repeatN]
  obtain ⟨m, hm⟩ := stretchFuel_repeat n ss ss 1 n h1
  exact ⟨1 + m, by omega, hm⟩

theorem stretchFuel_length : ∀ (fuel : Nat) (ss acc : List Nat) (n : Nat),
    ss ≠ [] → n ≤ acc.length + fuel * ss.length →
    n ≤ (stretchFuel fuel ss acc n).length := by
  intro fuel
  induction fuel with
  | zero => intro ss acc n _ h; simpa using h
  | succ fuel ih =>
      intro ss acc n hss h
      simp only [stretchFuel]
      by_cases hlen : acc.length < n
      · rw [if_pos hlen]
        have hne : ¬ss.isEmpty := by simpa [List.isEmpty_iff] using hss
        rw [if_neg hne]
        refine ih ss (acc ++ ss) n hss ?_
        simp only [List.length_append]
        have hmul : (fuel + 1) * ss.length = fuel * ss.length + ss.length := by
          ring
        omega
      · rw [if_neg hlen]; omega

theorem stretchKey_length (ss : List Nat) (n : Nat) (hss : ss ≠ []) :
    n ≤ (stretchKey ss n).length := by
  have hpos : 0 < ss.length := List.length_pos.mpr hss
  refine stretchFuel_length n ss ss n hss ?_
  have : n * 1 ≤ n * ss.length := Nat.mul_le_mul_left n hpos
  omega

theorem stretchKey_mem (ss : List Nat) (n : Nat) :
    ∀ x ∈ stretchKey ss n, x ∈ ss ∨ ss = [] := by
  intro x hx
  obtain ⟨k, _, hk⟩ := stretchKey_repeat ss n
  rw [hk] at hx
  exact Or.inl (repeatN_mem k ss x hx)

theorem stretchKey_getD (ss : List Nat) (n : Nat) (hss : ss ≠ []) (i : Nat)
    (hi : i < n) : (stretchKey ss n).getD i 0 = ss.getD (i % ss.length) 0 := by
  obtain ⟨k, _, hk⟩ := stretchKey_repeat ss n
  have hlen := stretchKey_length ss n hss
  rw [hk] at hlen ⊢
  exact repeatN_getD ss hss k i (by omega)

/-! ## Supporting lemmas: the encrypt and decrypt pipelines -/

/-- Inversion of a successful encryption: the public key must have decoded
to a well-formed key, and the output fields are the base64 encodings of the
XOR-encrypted message and the KEM ciphertext. -/
theorem encrypt_ok_inv {K : Kem} {r : Nat} {p : List Nat} {pkB : List Char}
    {em : EncryptedMessage} (h : encrypt_message K r p pkB = .ok em) :
    ∃ pkb, b64DecodeList pkB = some pkb ∧ pkb.length = K.pkLen ∧
      em = { ciphertext := b64EncodeList (List.zipWith Nat.xor p
               (stretchKey (K.encapsulate pkb r).2 p.length)),
             encapsulated_key := b64EncodeList (K.encapsulate pkb r).1 } := by
  unfold encrypt_message at h
  rcases hd : b64DecodeList pkB with _ | pkb
  · rw [hd] at h; exact absurd h (by simp)
  · rw [hd] at h
    dsimp only at h
    by_cases hl : pkb.length = K.pkLen
    · rw [if_pos hl] at h
      exact ⟨pkb, rfl, hl, by simpa using h.symm⟩
    · rw [if_neg hl] at h; exact absurd h (by simp)

/-- A well-formed public key makes encryption succeed, with the stated
output. -/
theorem encrypt_eq_ok {K : Kem} {r : Nat} {p : List Nat} {pkB : List Char}
    {pkb : List Nat} (hd : b64DecodeList pkB = some pkb)
    (hl : pkb.length = K.pkLen) :
    encrypt_message K r p pkB =
      .ok { ciphertext := b64EncodeList (List.zipWith Nat.xor p
              (stretchKey (K.encapsulate pkb r).2 p.length)),
            encapsulated_key := b64EncodeList (K.encapsulate pkb r).1 } := by
  unfold encrypt_message
  rw [hd]
  dsimp only
  rw [if_pos hl]

/-- The shared secret produced by encapsulation is nonempty. -/
theorem encap_ss_ne_nil (K : Kem) (pkb : List Nat) (r : Nat) :
    (K.encapsulate pkb r).2 ≠ [] := by
  intro h
  have hlen := K.encap_ss_len pkb r
  have := K.ssLen_pos
  rw [h] at hlen
  simp at hlen
  omega

/-- The shared secret produced by decapsulation is nonempty. -/
theorem decap_ss_ne_nil (K : Kem) (ct sk : List Nat) :
    K.decapsulate ct sk ≠ [] := by
  intro h
  have hlen := K.decap_ss_len ct sk
  have := K.ssLen_pos
  rw [h] at hlen
  simp at hlen
  omega

/-- Every byte of a stretched encapsulation shared secret is a byte. -/
theorem stretch_encap_bytes (K : Kem) (pkb : List Nat) (r n : Nat) :
    ∀ x ∈ stretchKey (K.encapsulate pkb r).2 n, x < 256 := by
  intro x hx
  rcases stretchKey_mem _ n x hx with h | h
  · exact K.encap_ss_bytes pkb r x h
  · exact absurd h (encap_ss_ne_nil K pkb r)

/-- The XOR-encrypted bytes are bytes and are as long as the plaintext. -/
theorem encrypted_bytes_spec (K : Kem) (pkb : List Nat) (r : Nat)
    (p : List Nat) (hp : ∀ x ∈ p, x < 256) :
    (∀ x ∈ List.zipWith Nat.xor p
        (stretchKey (K.encapsulate pkb r).2 p.length), x < 256) ∧
    (List.zipWith Nat.xor p
        (stretchKey (K.encapsulate pkb r).2 p.length)).length = p.length := by
  have hne := encap_ss_ne_nil K pkb r
  have hkl := stretchKey_length (K.encapsulate pkb r).2 p.length hne
  constructor
  · exact zipWith_xor_bytes_lt _ _ hp (stretch_encap_bytes K pkb r p.length)
  · rw [List.length_zipWith]; omega

/-- Behaviour of `decrypt_message` on the output of `encrypt_message`, for
any well-formed secret key (matching or not): the encapsulated key and the
ciphertext decode back to the encrypted bytes, decapsulation yields some
shared secret, and the result is the double-XOR of the plaintext under the
two keystreams, subject to the final UTF-8 check. -/
theorem decrypt_on_encrypted (K : Kem) (r : Nat) (p pkb skb : List Nat)
    (skB : List Char) (hp : ∀ x ∈ p, x < 256)
    (hsk : b64DecodeList skB = some skb) (hskl : skb.length = K.skLen) :
    decrypt_message K
      { ciphertext := b64EncodeList (List.zipWith Nat.xor p
          (stretchKey (K.encapsulate pkb r).2 p.length)),
        encapsulated_key := b64EncodeList (K.encapsulate pkb r).1 } skB =
    (if utf8Valid (List.zipWith Nat.xor
        (List.zipWith Nat.xor p (stretchKey (K.encapsulate pkb r).2 p.length))
        (stretchKey (K.decapsulate (K.encapsulate pkb r).1 skb) p.length)) then
      .ok (List.zipWith Nat.xor
        (List.zipWith Nat.xor p (stretchKey (K.encapsulate pkb r).2 p.length))
        (stretchKey (K.decapsulate (K.encapsulate pkb r).1 skb) p.length))
    else .error .utf8Error) := by
  obtain ⟨hencb, hencl⟩ := encrypted_bytes_spec K pkb r p hp
  have hct : b64DecodeList (b64EncodeList (K.encapsulate pkb r).1) =
      some (K.encapsulate pkb r).1 :=
    b64_roundtrip _ (K.encap_ct_bytes pkb r)
  have henc : b64DecodeList (b64EncodeList (List.zipWith Nat.xor p
      (stretchKey (K.encapsulate pkb r).2 p.length))) =
      some (List.zipWith Nat.xor p
        (stretchKey (K.encapsulate pkb r).2 p.length)) :=
    b64_roundtrip _ hencb
  unfold decrypt_message
  rw [hsk]
  simp only [hskl, if_pos rfl]
  rw [hct]
  simp only [K.encap_ct_len pkb r, if_pos rfl]
  rw [henc]
  simp [hencl]

/-- Decrypting with the matching secret key recovers exactly the plaintext
bytes, subject to the final UTF-8 check. -/
theorem decrypt_on_encrypted_matching (K : Kem) (r0 r : Nat) (p : List Nat)
    (hp : ∀ x ∈ p, x < 256) :
    decrypt_message K
      { ciphertext := b64EncodeList (List.zipWith Nat.xor p
          (stretchKey (K.encapsulate (K.keypair r0).1 r).2 p.length)),
        encapsulated_key :=
          b64EncodeList (K.encapsulate (K.keypair r0).1 r).1 }
      (b64EncodeList (K.keypair r0).2) =
    (if utf8Valid p then Except.ok p else Except.error CryptoError.utf8Error) := by
  have hsk : b64DecodeList (b64EncodeList (K.keypair r0).2) =
      some (K.keypair r0).2 :=
    b64_roundtrip _ (K.keypair_sk_bytes r0)
  rw [decrypt_on_encrypted K r p (K.keypair r0).1 (K.keypair r0).2 _ hp hsk
    (K.keypair_sk_len r0)]
  rw [K.decap_encap r0 r]
  have hne := encap_ss_ne_nil K (K.keypair r0).1 r
  have hkl := stretchKey_length (K.encapsulate (K.keypair r0).1 r).2 p.length hne
  rw [zipWith_xor_cancel p _ (by omega)]

/-! ## Supporting lemmas: framing -/

theorem startsWith_append_self : ∀ (p t : List Char),
    startsWith p (p ++ t) = true := by
  intro p
  induction p with
  | nil => intro t; rfl
  | cons c p ih => intro t; simp [startsWith, ih]

theorem listContains_of_startsWith {pat s : List Char}
    (h : startsWith pat s = true) (hne : pat ≠ []) :
    listContains pat s = true := by
  cases s with
  | nil =>
      cases pat with
      | nil => exact absurd rfl hne
      | cons c p => simp [startsWith] at h
  | cons c rest => simp [listContains, h]

theorem listContains_cons_false {pat : List Char} {c : Char} {s : List Char}
    (h : listContains pat (c :: s) = false) :
    startsWith pat (c :: s) = false ∧ listContains pat s = false := by
  simpa [listContains] using h

theorem removeAllF_no_occur : ∀ (fuel : Nat) (p : Char) (ps s : List Char),
    listContains (p :: ps) s = false → removeAllF fuel p ps s = s := by
  intro fuel
  induction fuel with
  | zero => intro p ps s _; rfl
  | succ fuel ih =>
      intro p ps s h
      cases s with
      | nil => rfl
      | cons c rest =>
          obtain ⟨h1, h2⟩ := listContains_cons_false h
          simp only [removeAllF, h1, if_false, Bool.false_eq_true]
          rw [ih p ps rest h2]

theorem removeAllF_succ_self (fuel : Nat) (p : Char) (ps t : List Char) :
    removeAllF (fuel + 1) p ps (p :: (ps ++ t)) = removeAllF fuel p ps t := by
  have hsw : startsWith (p :: ps) (p :: (ps ++ t)) = true :=
    startsWith_append_self (p :: ps) t
  simp only [removeAllF, hsw, if_true]
  rw [List.drop_left]

theorem rustTrim_cons_space (s : List Char) : rustTrim (' ' :: s) = rustTrim s := by
  simp [rustTrim, List.dropWhile_cons, show isRustWhitespace ' ' = true from by decide]

/-- `ENCRYPTION_MARKER` in head-tail form. -/
theorem marker_cons : ENCRYPTION_MARKER = '[' :: "Q-ENCRYPTED]".toList := by decide

/-! ## Claim theorems -/

/-- C2: for every key pair produced by `generate_keypair` and every string
`p` (any valid UTF-8 byte content, including empty and non-ASCII),
encryption under the public key succeeds and decryption of the result under
the secret key succeeds and returns `p`. -/
theorem round_trip_c2 (K : Kem) (r0 r1 : Nat) (p : List Nat)
    (hp : ∀ x ∈ p, x < 256) (hu : utf8Valid p = true) :
    ∃ em, encrypt_message K r1 p (generate_keypair K r0).public_key = .ok em ∧
      decrypt_message K em (generate_keypair K r0).secret_key = .ok p := by
  have hpk : b64DecodeList (generate_keypair K r0).public_key =
      some (K.keypair r0).1 :=
    b64_roundtrip _ (K.keypair_pk_bytes r0)
  refine ⟨_, encrypt_eq_ok hpk (K.keypair_pk_len r0), ?_⟩
  have hm := decrypt_on_encrypted_matching K r0 r1 p hp
  rw [show (generate_keypair K r0).secret_key =
      b64EncodeList (K.keypair r0).2 from rfl]
  rw [hm, if_pos hu]

theorem round_trip_c2_witness :
    ∃ em, encrypt_message toyKem 0 [104, 105, 195, 169]
        (generate_keypair toyKem 0).public_key = .ok em ∧
      decrypt_message toyKem em (generate_keypair toyKem 0).secret_key =
        .ok [104, 105, 195, 169] :=
  round_trip_c2 toyKem 0 0 [104, 105, 195, 169] (by decide) (by decide)

/-- C3: whenever encryption succeeds, the base64-decoded ciphertext has
exactly the plaintext's byte length. -/
theorem length_preservation_c3 (K : Kem) (r : Nat) (p : List Nat)
    (pkB : List Char) (em : EncryptedMessage) (hp : ∀ x ∈ p, x < 256)
    (h : encrypt_message K r p pkB = .ok em) :
    ∃ cs, b64DecodeList em.ciphertext = some cs ∧ cs.length = p.length := by
  obtain ⟨pkb, _, _, hem⟩ := encrypt_ok_inv h
  obtain ⟨hb, hlen⟩ := encrypted_bytes_spec K pkb r p hp
  subst hem
  exact ⟨_, b64_roundtrip _ hb, hlen⟩

theorem length_preservation_c3_witness :
    ∃ cs, b64DecodeList (EncryptedMessage.mk "aGk=".toList
        "AAAAAA==".toList).ciphertext = some cs ∧
      cs.length = ([104, 105] : List Nat).length :=
  length_preservation_c3 toyKem 0 [104, 105] ("AA==".toList)
    (EncryptedMessage.mk "aGk=".toList "AAAAAA==".toList)
    (by decide) (by decide)

/-- C7: the decoded ciphertext bytes are exactly the plaintext bytes XORed
with the keystream obtained by cycling the shared secret:
`ciphertext[i] = plaintext[i] ^^^ shared_secret[i % ssLen]`. -/
theorem keystream_c7 (K : Kem) (r : Nat) (p : List Nat) (pkB : List Char)
    (pkb : List Nat) (em : EncryptedMessage) (hp : ∀ x ∈ p, x < 256)
    (hd : b64DecodeList pkB = some pkb)
    (h : encrypt_message K r p pkB = .ok em) :
    ∃ cs, b64DecodeList em.ciphertext = some cs ∧ cs.length = p.length ∧
      ∀ i, i < p.length →
        cs.getD i 0 = p.getD i 0 ^^^
          ((K.encapsulate pkb r).2).getD (i % K.ssLen) 0 := by
  obtain ⟨pkb', hd', _, hem⟩ := encrypt_ok_inv h
  rw [hd] at hd'
  cases hd'
  obtain ⟨hb, hlen⟩ := encrypted_bytes_spec K pkb r p hp
  subst hem
  refine ⟨_, b64_roundtrip _ hb, hlen, ?_⟩
  intro i hi
  have hne := encap_ss_ne_nil K pkb r
  have hkl := stretchKey_length (K.encapsulate pkb r).2 p.length hne
  rw [getD_zipWith_xor p _ i hi (by omega)]
  rw [stretchKey_getD _ p.length hne i hi]
  rw [K.encap_ss_len pkb r]

theorem keystream_c7_witness :
    ∃ cs, b64DecodeList (EncryptedMessage.mk "aGk=".toList
        "AAAAAA==".toList).ciphertext = some cs ∧
      cs.length = ([104, 105] : List Nat).length ∧
      ∀ i, i < ([104, 105] : List Nat).length →
        cs.getD i 0 = ([104, 105] : List Nat).getD i 0 ^^^
          ((toyKem.encapsulate [0] 0).2).getD (i % toyKem.ssLen) 0 :=
  keystream_c7 toyKem 0 [104, 105] ("AA==".toList) [0]
    (EncryptedMessage.mk "aGk=".toList "AAAAAA==".toList)
    (by decide) (by decide) (by decide)

/-- Encryption with a public key that decodes to the wrong length fails with
the key-format error. -/
theorem encrypt_eq_keyformat {K : Kem} {r : Nat} {p : List Nat}
    {pkB : List Char} {bs : List Nat} (hd : b64DecodeList pkB = some bs)
    (hl : bs.length ≠ K.pkLen) :
    encrypt_message K r p pkB = .error .keyFormatError := by
  unfold encrypt_message
  rw [hd]
  dsimp only
  rw [if_neg hl]

/-- C8: `encrypt_message` fails with a key-format-class error (the
propagated base64 error or the `from_bytes` rejection) exactly when the
public key is not valid base64 or decodes to the wrong length, and any
well-formed public key makes steps 1 and 2 — and the whole encryption —
succeed. -/
theorem keyformat_c8 (K : Kem) (r : Nat) (p : List Nat) (pkB : List Char) :
    ((∃ e, encrypt_message K r p pkB = .error e ∧
        (e = CryptoError.base64Error ∨ e = CryptoError.keyFormatError)) ↔
      (b64DecodeList pkB = none ∨
        ∃ bs, b64DecodeList pkB = some bs ∧ bs.length ≠ K.pkLen)) ∧
    ((∃ bs, b64DecodeList pkB = some bs ∧ bs.length = K.pkLen) →
      ∃ em, encrypt_message K r p pkB = .ok em) := by
  rcases hd : b64DecodeList pkB with _ | bs
  · refine ⟨⟨fun _ => Or.inl rfl, fun _ => ?_⟩, fun hc => ?_⟩
    · refine ⟨.base64Error, ?_, Or.inl rfl⟩
      unfold encrypt_message
      rw [hd]
    · obtain ⟨bs, hbs, _⟩ := hc
      cases hbs
  · by_cases hl : bs.length = K.pkLen
    · have hok := encrypt_eq_ok (p := p) (r := r) hd hl
      refine ⟨⟨fun he => ?_, fun hc => ?_⟩, fun _ => ⟨_, hok⟩⟩
      · obtain ⟨e, he, _⟩ := he
        rw [hok] at he
        cases he
      · rcases hc with hc | ⟨bs', hbs', hne⟩
        · cases hc
        · cases hbs'
          exact absurd hl hne
    · have herr := encrypt_eq_keyformat (p := p) (r := r) hd hl
      refine ⟨⟨fun _ => Or.inr ⟨bs, rfl, hl⟩, fun _ =>
        ⟨.keyFormatError, herr, Or.inr rfl⟩⟩, fun hc => ?_⟩
      obtain ⟨bs', hbs', hleq⟩ := hc
      cases hbs'
      exact absurd hleq hl

/-- C9: `format_encrypted_subject` prepends the marker and a single space,
and `is_encrypted` (the marker substring check) accepts every formatted
subject. -/
theorem framing_marker_c9 (s : List Char) :
    format_encrypted_subject s = "[Q-ENCRYPTED] ".toList ++ s ∧
    is_encrypted (format_encrypted_subject s) = true := by
  constructor
  · rfl
  · refine listContains_of_startsWith ?_ (by decide)
    exact startsWith_append_self ENCRYPTION_MARKER (' ' :: s)

/-- C4 fails as stated: a subject with leading whitespace is not recovered,
because extraction trims whitespace belonging to the subject itself. -/
theorem framing_c4_counterexample :
    extract_original_subject (format_encrypted_subject [' ', 'a']) ≠
      [' ', 'a'] := by decide

/-- C4 (amended): for every subject that contains no occurrence of the
marker and carries no leading or trailing whitespace (`rustTrim s = s`),
extraction inverts formatting. -/
theorem framing_round_trip_c4 (s : List Char)
    (hnc : listContains ENCRYPTION_MARKER s = false)
    (ht : rustTrim s = s) :
    extract_original_subject (format_encrypted_subject s) = s := by
  have hlen : (format_encrypted_subject s).length = (' ' :: s).length + 13 := by
    simp [format_encrypted_subject, ENCRYPTION_MARKER]
  unfold extract_original_subject rustReplaceEmpty
  rw [hlen]
  have hform : format_encrypted_subject s =
      '[' :: ("Q-ENCRYPTED]".toList ++ (' ' :: s)) := by
    simp [format_encrypted_subject, marker_cons]
  rw [hform]
  have h13 : (' ' :: s).length + 13 = ((' ' :: s).length + 12) + 1 := by omega
  rw [h13]
  rw [show ENCRYPTION_MARKER.drop 1 = "Q-ENCRYPTED]".toList from rfl]
  rw [removeAllF_succ_self]
  have hsw : startsWith ('[' :: "Q-ENCRYPTED]".toList) (' ' :: s) = false := by
    simp [startsWith]
  have hnc2 : listContains ('[' :: "Q-ENCRYPTED]".toList) (' ' :: s) = false := by
    simp only [listContains, hsw, Bool.false_or]
    rw [← marker_cons]
    exact hnc
  rw [removeAllF_no_occur _ _ _ _ hnc2]
  rw [rustTrim_cons_space, ht]

theorem framing_round_trip_c4_witness :
    listContains ENCRYPTION_MARKER ['a'] = false ∧ rustTrim ['a'] = ['a'] ∧
    extract_original_subject (format_encrypted_subject ['a']) = ['a'] :=
  ⟨by decide, by decide, framing_round_trip_c4 ['a'] (by decide) (by decide)⟩

/-- C6 (amended): decrypting an encryption with any well-formed secret key
never fails at the decapsulation step — the outcome is always either the
UTF-8 decode error or a success — and whenever the decapsulated shared
secret differs from the encapsulated one at a keystream position below the
plaintext length, the success value is never the original plaintext.  (The
unamended claim concluded this from the two shared secrets merely being
different; that fails when they agree on every position the keystream
actually uses.) -/
theorem wrong_key_c6 (K : Kem) (r : Nat) (p pkb skb : List Nat)
    (pkB skB : List Char) (em : EncryptedMessage)
    (hp : ∀ x ∈ p, x < 256)
    (hd : b64DecodeList pkB = some pkb)
    (hok : encrypt_message K r p pkB = .ok em)
    (hsk : b64DecodeList skB = some skb)
    (hskl : skb.length = K.skLen) :
    (decrypt_message K em skB = .error .utf8Error ∨
      ∃ q, decrypt_message K em skB = .ok q) ∧
    (∀ j, j < p.length →
      (K.decapsulate (K.encapsulate pkb r).1 skb).getD (j % K.ssLen) 0 ≠
        ((K.encapsulate pkb r).2).getD (j % K.ssLen) 0 →
      decrypt_message K em skB ≠ .ok p) := by
  obtain ⟨pkb', hd', _, hem⟩ := encrypt_ok_inv hok
  rw [hd] at hd'
  cases hd'
  subst hem
  rw [decrypt_on_encrypted K r p pkb skb skB hp hsk hskl]
  have hgen : ∀ x : List Nat,
      (if utf8Valid x = true then Except.ok x
        else Except.error CryptoError.utf8Error) =
          Except.error CryptoError.utf8Error ∨
      ∃ q, (if utf8Valid x = true then Except.ok x
        else Except.error CryptoError.utf8Error) = Except.ok q := by
    intro x
    by_cases h : utf8Valid x = true
    · exact Or.inr ⟨x, by rw [if_pos h]⟩
    · exact Or.inl (by rw [if_neg h])
  refine ⟨hgen _, ?_⟩
  intro j hj hne heq
  have hne1 := encap_ss_ne_nil K pkb r
  have hne2 := decap_ss_ne_nil K (K.encapsulate pkb r).1 skb
  obtain ⟨_, henclen⟩ := encrypted_bytes_spec K pkb r p hp
  have hk1 := stretchKey_length (K.encapsulate pkb r).2 p.length hne1
  have hk2 := stretchKey_length (K.decapsulate (K.encapsulate pkb r).1 skb)
    p.length hne2
  split at heq
  · have hdp : List.zipWith Nat.xor
        (List.zipWith Nat.xor p (stretchKey (K.encapsulate pkb r).2 p.length))
        (stretchKey (K.decapsulate (K.encapsulate pkb r).1 skb) p.length) =
        p := by
      injection heq
    have hj' := congrArg (fun l => l.getD j 0) hdp
    simp only at hj'
    rw [getD_zipWith_xor _ _ j (by rw [List.length_zipWith]; omega)
      (by omega)] at hj'
    rw [getD_zipWith_xor p _ j hj (by omega)] at hj'
    rw [stretchKey_getD _ p.length hne1 j hj] at hj'
    rw [stretchKey_getD _ p.length hne2 j hj] at hj'
    rw [K.encap_ss_len pkb r] at hj'
    rw [K.decap_ss_len (K.encapsulate pkb r).1 skb] at hj'
    rw [Nat.xor_assoc] at hj'
    have h0 : p.getD j 0 ^^^
        (((K.encapsulate pkb r).2).getD (j % K.ssLen) 0 ^^^
          (K.decapsulate (K.encapsulate pkb r).1 skb).getD (j % K.ssLen) 0) =
        p.getD j 0 ^^^ 0 := by
      rw [Nat.xor_zero]
      exact hj'
    have hz := Nat.xor_right_inj.mp h0
    exact hne (Nat.xor_eq_zero.mp hz).symm
  · cases heq

theorem wrong_key_c6_counterexample :
    b64DecodeList ("AQ==".toList) = some [1] ∧
    ([1] : List Nat).length = toyKem.skLen ∧
    toyKem.decapsulate (toyKem.encapsulate [0] 0).1 [1] ≠
      (toyKem.encapsulate [0] 0).2 ∧
    encrypt_message toyKem 0 [97] ("AA==".toList) =
      .ok (EncryptedMessage.mk "YQ==".toList "AAAAAA==".toList) ∧
    decrypt_message toyKem
      (EncryptedMessage.mk "YQ==".toList "AAAAAA==".toList) ("AQ==".toList) =
      .ok [97] := by decide

theorem wrong_key_c6_witness :
    (decrypt_message toyKem
        (EncryptedMessage.mk "YQ==".toList "AAAAAA==".toList) ("Ag==".toList) =
        .error .utf8Error ∨
      ∃ q, decrypt_message toyKem
        (EncryptedMessage.mk "YQ==".toList "AAAAAA==".toList) ("Ag==".toList) =
        .ok q) ∧
    (∀ j, j < ([97] : List Nat).length →
      (toyKem.decapsulate (toyKem.encapsulate [0] 0).1 [2]).getD
          (j % toyKem.ssLen) 0 ≠
        ((toyKem.encapsulate [0] 0).2).getD (j % toyKem.ssLen) 0 →
      decrypt_message toyKem
        (EncryptedMessage.mk "YQ==".toList "AAAAAA==".toList) ("Ag==".toList) ≠
        .ok [97]) :=
  wrong_key_c6 toyKem 0 [97] [0] [2] ("AA==".toList) ("Ag==".toList)
    (EncryptedMessage.mk "YQ==".toList "AAAAAA==".toList)
    (by decide) (by decide) (by decide) (by decide) (by decide)

/-- C1 fails on the code: an `encapsulated_key` decoding to 32 bytes (not
the Kyber768 ciphertext size 1088) does not produce an error — the
demo-mode fallback reports success with the base64-decoded caller-supplied
ciphertext (here the five bytes of "hello") as the plaintext. -/
theorem demo_fallback_c1 :
    b64DecodeList (b64EncodeList (List.replicate 32 0)) =
      some (List.replicate 32 0) ∧
    (List.replicate 32 (0 : Nat)).length ≠ EXPECTED_KYBER_CIPHERTEXT_SIZE ∧
    toyKem1088.ctLen = EXPECTED_KYBER_CIPHERTEXT_SIZE ∧
    decrypt_message toyKem1088
      (EncryptedMessage.mk "aGVsbG8=".toList (b64EncodeList (List.replicate 32 0)))
      ("AA==".toList) = .ok [104, 101, 108, 108, 111] := by decide

/-- C5 fails on the code: with the debug flag at its initial value `true`,
a successful decryption whose plaintext is longer than 30 bytes with a
multi-byte character straddling byte 30 drives the debug print
`&decrypted_message[..30]` into a char-boundary panic.  The input here
decrypts to 29 `a`s followed by the two-byte character `é`. -/
theorem debug_slice_panic_c5 :
    DEBUG_MODE = true ∧
    decrypt_message toyKem
      (EncryptedMessage.mk (b64EncodeList (List.replicate 29 97 ++ [195, 169]))
        "AAAAAA==".toList) ("AA==".toList) =
      .ok (List.replicate 29 97 ++ [195, 169]) ∧
    isCharBoundary (List.replicate 29 97 ++ [195, 169]) 30 = false ∧
    decrypt_debug_slice_panics toyKem DEBUG_MODE
      (EncryptedMessage.mk (b64EncodeList (List.replicate 29 97 ++ [195, 169]))
        "AAAAAA==".toList) ("AA==".toList) = true := by decide

/-! ## Supporting lemmas: the JSON wire format -/

theorem hexVal_hexDigitChar {n : Nat} (h : n < 16) :
    hexVal (hexDigitChar n) = some n := by
  revert h
  revert n
  decide

theorem skipWs_cons_of {c : Char} {t : List Char}
    (h : (c = ' ' || c = '\t' || c = '\n' || c = '\r') = false) :
    skipWs (c :: t) = c :: t := by
  simp only [skipWs, List.dropWhile_cons, h]
  simp

/-- The string parser inverts serde_json's escaping, leaving the input
after the closing quote untouched. -/
theorem parse_escape : ∀ (cs rest : List Char),
    parseJsonString (escapeString cs ++ '"' :: rest) = some (cs, rest) := by
  intro cs
  induction cs with
  | nil =>
      intro rest
      rw [show escapeString [] ++ '"' :: rest = '"' :: rest from rfl]
      rw [parseJsonString.eq_def]
      simp
  | cons c cs ih =>
      intro rest
      by_cases h1 : c = '"'
      · subst h1
        have hesc : escapeChar '"' = ['\\', '"'] := by decide
        simp only [escapeString, hesc, List.cons_append]
        rw [parseJsonString.eq_def]
        simp [unescapeChar, ih rest]
      · by_cases h2 : c = '\\'
        · subst h2
          have hesc : escapeChar '\\' = ['\\', '\\'] := by decide
          simp only [escapeString, hesc, List.cons_append]
          rw [parseJsonString.eq_def]
          simp [unescapeChar, ih rest]
        · by_cases h3 : c.toNat = 8
          · have hc : c = '\x08' := by rw [← Char.ofNat_toNat c, h3]
            subst hc
            have hesc : escapeChar '\x08' = ['\\', 'b'] := by decide
            simp only [escapeString, hesc, List.cons_append]
            rw [parseJsonString.eq_def]
            simp [unescapeChar, ih rest]
          · by_cases h4 : c.toNat = 9
            · have hc : c = '\t' := by rw [← Char.ofNat_toNat c, h4]
              subst hc
              have hesc : escapeChar '\t' = ['\\', 't'] := by decide
              simp only [escapeString, hesc, List.cons_append]
              rw [parseJsonString.eq_def]
              simp [unescapeChar, ih rest]
            · by_cases h5 : c.toNat = 10
              · have hc : c = '\n' := by rw [← Char.ofNat_toNat c, h5]
                subst hc
                have hesc : escapeChar '\n' = ['\\', 'n'] := by decide
                simp only [escapeString, hesc, List.cons_append]
                rw [parseJsonString.eq_def]
                simp [unescapeChar, ih rest]
              · by_cases h6 : c.toNat = 12
                · have hc : c = '\x0C' := by rw [← Char.ofNat_toNat c, h6]
                  subst hc
                  have hesc : escapeChar '\x0C' = ['\\', 'f'] := by decide
                  simp only [escapeString, hesc, List.cons_append]
                  rw [parseJsonString.eq_def]
                  simp [unescapeChar, ih rest]
                · by_cases h7 : c.toNat = 13
                  · have hc : c = '\r' := by rw [← Char.ofNat_toNat c, h7]
                    subst hc
                    have hesc : escapeChar '\r' = ['\\', 'r'] := by decide
                    simp only [escapeString, hesc, List.cons_append]
                    rw [parseJsonString.eq_def]
                    simp [unescapeChar, ih rest]
                  · by_cases h8 : c.toNat < 32
                    · have hesc : escapeChar c = ['\\', 'u', '0', '0',
                          hexDigitChar (c.toNat / 16),
                          hexDigitChar (c.toNat % 16)] := by
                        simp [escapeChar, h1, h2, h3, h4, h5, h6, h7, h8]
                      simp only [escapeString, hesc, List.cons_append]
                      rw [parseJsonString.eq_def]
                      have hh3 := hexVal_hexDigitChar
                        (show c.toNat / 16 < 16 by omega)
                      have hh4 := hexVal_hexDigitChar
                        (show c.toNat % 16 < 16 by omega)
                      simp only [hh3, hh4]
                      simp [hexVal, ih rest,
                        show c.toNat / 16 * 16 + c.toNat % 16 = c.toNat from
                          by omega,
                        show c.toNat < 0xD800 from by omega, Char.ofNat_toNat]
                    · have hesc : escapeChar c = [c] := by
                        simp [escapeChar, h1, h2, h3, h4, h5, h6, h7, h8]
                      simp only [escapeString, hesc, List.cons_append,
                        List.nil_append]
                      rw [parseJsonString.eq_def]
                      simp [h1, h2, h8, ih rest]

/-- Strings without characters needing escapes (such as the two field
names) parse back to themselves. -/
theorem parse_plain (cs rest : List Char) (h : escapeString cs = cs) :
    parseJsonString (cs ++ '"' :: rest) = some (cs, rest) := by
  conv_lhs => rw [← h]
  exact parse_escape cs rest

/-- Parsing the member list of an object of two escaped string members, as
the serializer lays it out. -/
theorem parsePairs_two (f : Nat) (n1 v1 n2 v2 : List Char) :
    parsePairs (f + 2) ('"' :: escapeString n1 ++ '"' :: ':' :: '"' ::
      escapeString v1 ++ '"' :: ',' :: '"' :: escapeString n2 ++
      '"' :: ':' :: '"' :: escapeString v2 ++ ['"', '\x7d']) =
    some ([(n1, v1), (n2, v2)], []) := by
  have ha := parse_escape n1 (':' :: '"' :: escapeString v1 ++ '"' :: ',' ::
    '"' :: escapeString n2 ++ '"' :: ':' :: '"' :: escapeString v2 ++
    ['"', '\x7d'])
  have hb := parse_escape v1 (',' :: '"' :: escapeString n2 ++ '"' :: ':' ::
    '"' :: escapeString v2 ++ ['"', '\x7d'])
  have hc2 := parse_escape n2 (':' :: '"' :: escapeString v2 ++ ['"', '\x7d'])
  have hd2 := parse_escape v2 ['\x7d']
  simp only [List.cons_append, List.append_assoc] at ha hb hc2 hd2
  simp [parsePairs, skipWs, List.dropWhile_cons, ha, hb, hc2, hd2]

/-- C10: serialization always succeeds and deserializing a serialized
`EncryptedMessage` recovers both fields exactly. -/
theorem serde_round_trip_c10 (m : EncryptedMessage) :
    deserialize_encrypted_message (serialize_encrypted_message m) = .ok m := by
  obtain ⟨c, k⟩ := m
  have hA : escapeString ("ciphertext".toList) = "ciphertext".toList := by
    decide
  have hB : escapeString ("encapsulated_key".toList) =
      "encapsulated_key".toList := by decide
  have hp2 := fun f => parsePairs_two f ("ciphertext".toList) c
    ("encapsulated_key".toList) k
  simp only [hA, hB, List.cons_append, List.append_assoc] at hp2
  unfold deserialize_encrypted_message serialize_encrypted_message
  simp only [List.cons_append, List.append_assoc]
  rw [skipWs_cons_of (by decide)]
  dsimp only
  rw [if_pos rfl]
  rw [hp2]
  simp [lookupField, skipWs]
